import Mathlib

/-!
Verification of the sharded LRU cache engine of `vlkhvnn/InMem-Cache`
(`pkg/cache`: `Shard`, `ShardedCache`, functional options, FNV-32a routing).

Modelling conventions:
* A Go `string` is an immutable byte sequence; we model it as `GoStr := List Nat`
  (each element the value of one byte).  Equality of Go strings is byte-wise
  equality, which the `DecidableEq` on `List Nat` captures exactly.
* The Go `int` type (64-bit) is modelled as `Int`; the conversion `uint32(n)`
  used in `getShard` is modelled by `uint32ofInt` (two's-complement wrap into
  `[0, 2^32)`), and 32-bit overflow of the FNV-1a multiplication is modelled
  with an explicit `% 2^32`.
* A `Shard` owns a doubly linked LRU list (`container/list`) ordered
  most-recently-used first, and a map `data : map[string]*list.Element` whose
  value for a key is a pointer to that key's unique list node.  We model the
  list as `lru : List entry` (front = most recently used) and the map by its
  key set `data : List GoStr`; the pointer `data[k]` is modelled as "the first
  node of `lru` whose key is `k`", which coincides with the Go pointer on every
  state where each key occurs at most once in the list (the consistency
  invariant proved below for all reachable states).
* `Shard.get` returns `(value?, shard')`: `none` models the
  `errors.New("key not found")` error path.
-/

/-- A Go string, as its byte sequence. -/
abbrev GoStr := List Nat

/-- `entry` from `cache.go`: a key-value pair stored in the LRU list. -/
structure entry where
  key : GoStr
  value : GoStr
deriving DecidableEq, Repr

/-- `Shard` from `cache.go`: the LRU list (front = most recently used), the
key set of the `data` map, and the capacity.  The mutex is concurrency-control
only and has no sequential semantics. -/
structure Shard where
  data : List GoStr
  lru : List entry
  capacity : Int
deriving DecidableEq, Repr

/-- `newShard(capacity)`: empty map, empty list, given capacity. -/
def newShard (capacity : Int) : Shard :=
  { data := [], lru := [], capacity := capacity }

/-- Remove the first node of the list whose key is `k`: the model of
`s.lru.Remove(elem)` where `elem` is the map's pointer for `k`. -/
def removeKey : List entry → GoStr → List entry
  | [], _ => []
  | e :: rest, k => if e.key = k then rest else e :: removeKey rest k

/-- `Shard.evict` from `cache.go`: remove the back of the LRU list (if any)
and delete its key from the map. -/
def Shard.evict (s : Shard) : Shard :=
  match s.lru.getLast? with
  | none => s
  | some e =>
    { s with
      data := s.data.filter (fun k => k ≠ e.key)
      lru := s.lru.dropLast }

/-- `Shard.set(key, value)` from `cache.go`.  If the key exists, update the
value through the map's pointer and `MoveToFront` it.  Otherwise, if a positive
capacity is reached (`s.capacity > 0 && s.lru.Len() >= s.capacity`), evict the
least-recently-used entry, then `PushFront` the new entry and record it in the
map. -/
def Shard.set (s : Shard) (key value : GoStr) : Shard :=
  if key ∈ s.data then
    { s with lru := ⟨key, value⟩ :: removeKey s.lru key }
  else
    let s' :=
      if 0 < s.capacity ∧ s.capacity ≤ (s.lru.length : Int) then s.evict else s
    { s' with
      data := key :: s'.data
      lru := ⟨key, value⟩ :: s'.lru }

/-- `Shard.get(key)` from `cache.go`: on a hit, `MoveToFront` the node the
map points to and return its value (a hit never errors in the Go code); on a
miss, return the "key not found" error (`none`) and leave the shard
untouched.  The inner `none` branch (key in the map but no node in the list)
is unrepresentable in Go — the map value *is* a pointer to a list node — and
is unreachable from any reachable shard state (see the consistency
invariant); it returns a dummy hit to preserve "a hit never errors". -/
def Shard.get (s : Shard) (key : GoStr) : Option GoStr × Shard :=
  if key ∈ s.data then
    match s.lru.find? (fun e => e.key = key) with
    | some e => (some e.value, { s with lru := e :: removeKey s.lru key })
    | none => (some [], s)
  else
    (none, s)

/-- `Shard.delete(key)` from `cache.go`: if present, remove the node from the
list and the key from the map; otherwise do nothing. -/
def Shard.delete (s : Shard) (key : GoStr) : Shard :=
  if key ∈ s.data then
    { s with
      data := s.data.filter (fun k => k ≠ key)
      lru := removeKey s.lru key }
  else
    s

/-- Apply a list of `set` calls in order. -/
def Shard.setAll (s : Shard) (kvs : List (GoStr × GoStr)) : Shard :=
  kvs.foldl (fun acc kv => acc.set kv.1 kv.2) s

/-- Consistency of a shard: the map's key set has no duplicates, each key
occurs at most once in the LRU ordering, and the two agree — every key of
the map is a key of the ordering and vice versa (so the map's pointer for a
key designates that key's unique list node). -/
def WF (s : Shard) : Prop :=
  s.data.Nodup ∧ (s.lru.map entry.key).Nodup ∧
    (∀ k ∈ s.data, k ∈ s.lru.map entry.key) ∧
    (∀ k ∈ s.lru.map entry.key, k ∈ s.data)

instance (s : Shard) : Decidable (WF s) := by
  unfold WF
  infer_instance

/-- The shard states reachable from a freshly created shard by any sequence
of `set`, `get`, `delete` and internal `evict` calls. -/
inductive Reachable : Shard → Prop where
  | base (c : Int) : Reachable (newShard c)
  | set (s : Shard) (k v : GoStr) : Reachable s → Reachable (s.set k v)
  | get (s : Shard) (k : GoStr) : Reachable s → Reachable (s.get k).2
  | del (s : Shard) (k : GoStr) : Reachable s → Reachable (s.delete k)
  | evict (s : Shard) : Reachable s → Reachable s.evict

/-- `evict` only removes keys from the map. -/
theorem evict_data_subset (s : Shard) :
    ∀ x, x ∈ s.evict.data → x ∈ s.data := by
  unfold Shard.evict
  split
  · exact fun x hx => hx
  · intro x hx
    exact (List.mem_filter.1 hx).1

/-- The keys of `removeKey l k` are the keys of `l` with (the first) `k`
erased. -/
theorem keys_removeKey (l : List entry) (k : GoStr) :
    (removeKey l k).map entry.key = (l.map entry.key).erase k := by
  induction l with
  | nil => rfl
  | cons e rest ih =>
    unfold removeKey
    by_cases he : e.key = k
    · rw [if_pos he]
      simp [List.erase_cons, he]
    · rw [if_neg he]
      simp [List.erase_cons, he, ih]

/-- Moving (a node for) a present key to the front preserves consistency. -/
theorem WF_moveToFront (s : Shard) (k : GoStr) (e : entry) (hek : e.key = k)
    (hWF : WF s) (hd : k ∈ s.data) :
    WF { s with lru := e :: removeKey s.lru k } := by
  obtain ⟨hnd, hndk, hdk, hkd⟩ := hWF
  have hkeys : (e :: removeKey s.lru k).map entry.key
      = k :: (s.lru.map entry.key).erase k := by
    simp [keys_removeKey, hek]
  refine ⟨hnd, ?_, ?_, ?_⟩
  · rw [hkeys]
    refine List.nodup_cons.2 ⟨?_, hndk.erase k⟩
    intro hkmem
    exact ((hndk.mem_erase_iff).1 hkmem).1 rfl
  · intro x hx
    rw [hkeys]
    by_cases hxk : x = k
    · exact hxk ▸ List.mem_cons_self k _
    · exact List.mem_cons_of_mem k
        ((hndk.mem_erase_iff).2 ⟨hxk, hdk x hx⟩)
  · intro x hx
    rw [hkeys] at hx
    rcases List.mem_cons.1 hx with hxk | hx'
    · exact hxk ▸ hd
    · exact hkd x (List.mem_of_mem_erase hx')

/-- `evict` preserves consistency. -/
theorem WF_evict (s : Shard) (hWF : WF s) : WF s.evict := by
  obtain ⟨hnd, hndk, hdk, hkd⟩ := hWF
  unfold Shard.evict
  cases hl : s.lru.getLast? with
  | none => exact ⟨hnd, hndk, hdk, hkd⟩
  | some e =>
    obtain ⟨ys, hys⟩ := List.getLast?_eq_some_iff.1 hl
    have hdrop : s.lru.dropLast = ys := by
      rw [hys]
      exact List.dropLast_concat
    have hkeys : s.lru.map entry.key = ys.map entry.key ++ [e.key] := by
      rw [hys]
      simp
    have hkeysd : s.lru.dropLast.map entry.key = ys.map entry.key := by
      rw [hdrop]
    have hnotin : e.key ∉ ys.map entry.key := by
      intro hmem
      have := hkeys ▸ hndk
      rcases List.nodup_append.1 this with ⟨_, _, hdisj⟩
      exact hdisj hmem (List.mem_singleton_self e.key)
    refine ⟨hnd.filter _, ?_, ?_, ?_⟩
    · rw [hkeysd]
      have := hkeys ▸ hndk
      exact (List.nodup_append.1 this).1
    · intro x hx
      rw [hkeysd]
      have hxd : x ∈ s.data := (List.mem_filter.1 hx).1
      have hxne : x ≠ e.key := by
        have := (List.mem_filter.1 hx).2
        simpa using this
      have hxk : x ∈ s.lru.map entry.key := hdk x hxd
      rw [hkeys] at hxk
      rcases List.mem_append.1 hxk with h | h
      · exact h
      · exact absurd (List.mem_singleton.1 h) hxne
    · intro x hx
      rw [hkeysd] at hx
      have hxk : x ∈ s.lru.map entry.key := by
        rw [hkeys]
        exact List.mem_append_left _ hx
      have hxd : x ∈ s.data := hkd x hxk
      have hxne : x ≠ e.key := fun hxe => hnotin (hxe ▸ hx)
      exact List.mem_filter.2 ⟨hxd, by simpa using hxne⟩

/-- `set` preserves consistency. -/
theorem WF_set (s : Shard) (k v : GoStr) (hWF : WF s) : WF (s.set k v) := by
  unfold Shard.set
  by_cases hd : k ∈ s.data
  · rw [if_pos hd]
    exact WF_moveToFront s k ⟨k, v⟩ rfl hWF hd
  · rw [if_neg hd]
    show WF
      (let s' := if 0 < s.capacity ∧ s.capacity ≤ (s.lru.length : Int)
          then s.evict else s
       { s' with data := k :: s'.data, lru := ⟨k, v⟩ :: s'.lru })
    have hWF' : WF (if 0 < s.capacity ∧ s.capacity ≤ (s.lru.length : Int)
        then s.evict else s) := by
      split
      · exact WF_evict s hWF
      · exact hWF
    have hd' : k ∉ (if 0 < s.capacity ∧ s.capacity ≤ (s.lru.length : Int)
        then s.evict else s).data := by
      split
      · exact fun hmem => hd (evict_data_subset s k hmem)
      · exact hd
    obtain ⟨hnd, hndk, hdk, hkd⟩ := hWF'
    refine ⟨List.nodup_cons.2 ⟨hd', hnd⟩, ?_, ?_, ?_⟩
    · show (⟨k, v⟩ :: _).map entry.key |>.Nodup
      refine List.nodup_cons.2 ⟨?_, hndk⟩
      exact fun hmem => hd' (hkd k hmem)
    · intro x hx
      rcases List.mem_cons.1 hx with hxk | hx'
      · exact hxk ▸ List.mem_cons_self _ _
      · exact List.mem_cons_of_mem _ (hdk x hx')
    · intro x hx
      rcases List.mem_cons.1 hx with hxk | hx'
      · exact hxk ▸ List.mem_cons_self _ _
      · exact List.mem_cons_of_mem _ (hkd x hx')

/-- `get` preserves consistency. -/
theorem WF_get (s : Shard) (k : GoStr) (hWF : WF s) : WF (s.get k).2 := by
  unfold Shard.get
  by_cases hd : k ∈ s.data
  · rw [if_pos hd]
    cases hf : s.lru.find? (fun e => e.key = k) with
    | none => exact hWF
    | some e =>
      have hek : e.key = k := by
        have := List.find?_some hf
        simpa using this
      exact WF_moveToFront s k e hek hWF hd
  · rw [if_neg hd]
    exact hWF

/-- `delete` preserves consistency. -/
theorem WF_delete (s : Shard) (k : GoStr) (hWF : WF s) : WF (s.delete k) := by
  obtain ⟨hnd, hndk, hdk, hkd⟩ := hWF
  unfold Shard.delete
  by_cases hd : k ∈ s.data
  · rw [if_pos hd]
    refine ⟨hnd.filter _, ?_, ?_, ?_⟩
    · rw [keys_removeKey]
      exact hndk.erase k
    · intro x hx
      rw [keys_removeKey]
      have hxd : x ∈ s.data := (List.mem_filter.1 hx).1
      have hxne : x ≠ k := by
        have := (List.mem_filter.1 hx).2
        simpa using this
      exact (hndk.mem_erase_iff).2 ⟨hxne, hdk x hxd⟩
    · intro x hx
      rw [keys_removeKey] at hx
      have hxne : x ≠ k := ((hndk.mem_erase_iff).1 hx).1
      have hxd : x ∈ s.data := hkd x (List.mem_of_mem_erase hx)
      exact List.mem_filter.2 ⟨hxd, by simpa using hxne⟩
  · rw [if_neg hd]
    exact ⟨hnd, hndk, hdk, hkd⟩

/-- C6: every shard state reachable from a fresh shard by any sequence of
`set`, `get`, `delete` and internal `evict` operations is consistent: the
map's key set and the LRU ordering's key set coincide, each without
duplicates, so the map's pointer for a key designates that key's unique
list node. -/
theorem C6_lookup_ordering_consistent (s : Shard) (h : Reachable s) :
    WF s := by
  induction h with
  | base c => exact ⟨List.nodup_nil, List.nodup_nil, by simp [newShard], by simp [newShard]⟩
  | set s k v _ ih => exact WF_set s k v ih
  | get s k _ ih => exact WF_get s k ih
  | del s k _ ih => exact WF_delete s k ih
  | evict s _ ih => exact WF_evict s ih

theorem C6_witness :
    WF ((((newShard 2).set [97] [1]).set [98] [2]).set [99] [3]) :=
  C6_lookup_ordering_consistent _
    (Reachable.set _ [99] [3]
      (Reachable.set _ [98] [2]
        (Reachable.set _ [97] [1] (Reachable.base 2))))

/-- The FNV-1a 32-bit hash of a byte sequence (`hash/fnv`, `fnv.New32a` then
`Write` then `Sum32`): start from the offset basis 2166136261 and for each
byte xor it in and multiply by the prime 16777619 modulo `2^32`. -/
def fnv32a (key : GoStr) : Nat :=
  key.foldl (fun h b => ((h ^^^ b) * 16777619) % 2 ^ 32) 2166136261

/-- Go's `uint32(n)` conversion of an `int`: two's-complement wrap into
`[0, 2^32)` (Lean's `Int.emod` by a positive modulus already lands there). -/
def uint32ofInt (n : Int) : Nat := (n % (2 ^ 32 : Int)).toNat

/-- `ShardedCache` from `cache.go`: the shard array and the two recorded
configuration integers. -/
structure ShardedCache where
  shards : List Shard
  shardCount : Int
  shardCapacity : Int
deriving DecidableEq, Repr

/-- The functional `Option` type of `cache.go` (named `COption` here because
`Option` is taken by Lean).  The package exports exactly two constructors,
`WithShardCount` and `WithShardCapacity`. -/
inductive COption where
  | withShardCount (n : Int)
  | withShardCapacity (c : Int)
deriving DecidableEq, Repr

/-- Applying one option to the cache under construction.  `WithShardCount(n)`
stores `n` only when `n > 0`; `WithShardCapacity(cap)` stores `cap` only when
`cap > 0`; invalid values leave the defaults untouched. -/
def applyOption (sc : ShardedCache) : COption → ShardedCache
  | COption.withShardCount n => if 0 < n then { sc with shardCount := n } else sc
  | COption.withShardCapacity c => if 0 < c then { sc with shardCapacity := c } else sc

/-- `NewShardedCache(opts...)`: defaults `shardCount = 16`,
`shardCapacity = 100`, apply the options in order, then build the shard slice
of length `shardCount` with fresh shards of capacity `shardCapacity`. -/
def NewShardedCache (opts : List COption) : ShardedCache :=
  let sc := opts.foldl applyOption
    { shards := [], shardCount := 16, shardCapacity := 100 }
  { sc with
    shards := List.replicate sc.shardCount.toNat (newShard sc.shardCapacity) }

/-- `ShardedCache.getShard`: `fnv.New32a` hash of the key modulo
`uint32(sc.shardCount)`, as the index into the shard slice.  When
`uint32(sc.shardCount) = 0` the Go expression `hash.Sum32() % uint32(sc.shardCount)`
panics with a division by zero; `none` models that panic. -/
def ShardedCache.getShardIdx (sc : ShardedCache) (key : GoStr) : Option Nat :=
  let m := uint32ofInt sc.shardCount
  if m = 0 then none else some (fnv32a key % m)

/-- `ShardedCache.Set`: route to the owning shard and delegate.  `none`
models a routing panic (zero modulus or out-of-bounds index), which never
happens for well-formed shard counts. -/
def ShardedCache.Set (sc : ShardedCache) (key value : GoStr) :
    Option ShardedCache :=
  match sc.getShardIdx key with
  | none => none
  | some i =>
    match sc.shards[i]? with
    | none => none
    | some sh => some { sc with shards := sc.shards.set i (sh.set key value) }

/-- `ShardedCache.Get`: route to the owning shard and delegate; the inner
`Option GoStr` is the shard's hit/`NotFound` result. -/
def ShardedCache.Get (sc : ShardedCache) (key : GoStr) :
    Option (Option GoStr × ShardedCache) :=
  match sc.getShardIdx key with
  | none => none
  | some i =>
    match sc.shards[i]? with
    | none => none
    | some sh =>
      some ((sh.get key).1, { sc with shards := sc.shards.set i (sh.get key).2 })

/-- `ShardedCache.Delete`: route to the owning shard and delegate. -/
def ShardedCache.Delete (sc : ShardedCache) (key : GoStr) :
    Option ShardedCache :=
  match sc.getShardIdx key with
  | none => none
  | some i =>
    match sc.shards[i]? with
    | none => none
    | some sh => some { sc with shards := sc.shards.set i (sh.delete key) }

/-- Apply a list of store-level `Set` calls in order. -/
def ShardedCache.SetAll (sc : ShardedCache) (kvs : List (GoStr × GoStr)) :
    Option ShardedCache :=
  kvs.foldlM (fun acc kv => acc.Set kv.1 kv.2) sc

/-- The shard state after `set(a,1)`, `set(b,2)`, `get(a)`, `set(c,3)` on a
fresh shard of capacity 2 (keys/values as byte sequences: `a = [97]`,
`b = [98]`, `c = [99]`). -/
def c2state : Shard :=
  ((((newShard 2).set [97] [1]).set [98] [2]).get [97]).2.set [99] [3]

/-- C2: on a single shard of capacity 2, the sequence `set(a,1)`, `set(b,2)`,
`get(a)`, `set(c,3)` leaves exactly the keys `a` and `c` present; a
subsequent `get(a)` returns `1`, `get(c)` returns `3`, and `get(b)` fails
with the not-found error (`b` was evicted as least recently used). -/
theorem C2_lru_order_capacity_two :
    (c2state.get [97]).1 = some [1] ∧ (c2state.get [99]).1 = some [3] ∧
      (c2state.get [98]).1 = none ∧
      [97] ∈ c2state.data ∧ [99] ∈ c2state.data ∧ [98] ∉ c2state.data ∧
      c2state.data.length = 2 ∧ c2state.lru.map entry.key = [[99], [97]] := by
  decide

/-- C4: shard routing is a pure function of the key and the shard count:
two stores with the same shard count (however different otherwise) compute
the same index for every key, and repeated calls agree because
`getShardIdx` is a function. -/
theorem C4_routing_deterministic (sc1 sc2 : ShardedCache) (k : GoStr)
    (h : sc1.shardCount = sc2.shardCount) :
    sc1.getShardIdx k = sc2.getShardIdx k := by
  unfold ShardedCache.getShardIdx
  rw [h]

theorem C4_witness :
    (NewShardedCache [COption.withShardCount 4]).shardCount
        = (NewShardedCache
            [COption.withShardCount 4, COption.withShardCapacity 2]).shardCount ∧
    (NewShardedCache [COption.withShardCount 4]).getShardIdx [97]
        = (NewShardedCache
            [COption.withShardCount 4, COption.withShardCapacity 2]).getShardIdx [97] :=
  ⟨by decide,
   C4_routing_deterministic _ _ [97] (by decide)⟩

/-- Removing the (first) node of a key that is present in the list shortens
it by exactly one. -/
theorem removeKey_length (l : List entry) (k : GoStr)
    (h : k ∈ l.map entry.key) : (removeKey l k).length + 1 = l.length := by
  induction l with
  | nil => simp at h
  | cons e rest ih =>
    by_cases he : e.key = k
    · simp [removeKey, he]
    · have hk : k ∈ rest.map entry.key := by
        simp at h
        rcases h with h | h
        · exact absurd h.symm he
        · simpa using h
      simp [removeKey, he, ih hk]

/-- Removing the node of key `k` does not disturb the first node of any
other key. -/
theorem find?_removeKey_ne (l : List entry) (k k' : GoStr) (hne : k' ≠ k) :
    (removeKey l k).find? (fun e => e.key = k')
      = l.find? (fun e => e.key = k') := by
  induction l with
  | nil => rfl
  | cons e rest ih =>
    unfold removeKey
    by_cases he : e.key = k
    · rw [if_pos he]
      have hpe : ¬ ((fun e => decide (e.key = k')) e = true) := by
        simp [he]
        exact Ne.symm hne
      exact (List.find?_cons_of_neg rest hpe).symm
    · rw [if_neg he]
      by_cases hp : ((fun e => decide (e.key = k')) e = true)
      · exact (List.find?_cons_of_pos (removeKey rest k) hp).trans
          (List.find?_cons_of_pos rest hp).symm
      · exact (List.find?_cons_of_neg (removeKey rest k) hp).trans
          (ih.trans (List.find?_cons_of_neg rest hp).symm)

/-- C3: a `set` on an already-present key (present in the map, whose node is
in the LRU list) updates the value, promotes the key to most recently used
(the new list head), leaves the map and the list length unchanged, preserves
every other key's node (value and relative position), and keeps the
capacity — with no capacity hypothesis: an update never evicts. -/
theorem C3_update_in_place (s : Shard) (k v : GoStr)
    (hd : k ∈ s.data) (hl : k ∈ s.lru.map entry.key) :
    (s.set k v).data = s.data ∧
    (s.set k v).lru.length = s.lru.length ∧
    (s.set k v).lru.head? = some ⟨k, v⟩ ∧
    ((s.set k v).lru.find? (fun e => e.key = k)).map entry.value = some v ∧
    (∀ k', k' ≠ k →
      (s.set k v).lru.find? (fun e => e.key = k')
        = s.lru.find? (fun e => e.key = k')) ∧
    (s.set k v).capacity = s.capacity := by
  have hset : s.set k v = { s with lru := ⟨k, v⟩ :: removeKey s.lru k } := by
    unfold Shard.set
    rw [if_pos hd]
  rw [hset]
  refine ⟨rfl, ?_, rfl, ?_, ?_, rfl⟩
  · simpa using removeKey_length s.lru k hl
  · have hp : ((fun e => decide (e.key = k)) (⟨k, v⟩ : entry) = true) := by simp
    show (List.find? (fun e => decide (e.key = k))
        (⟨k, v⟩ :: removeKey s.lru k)).map entry.value = some v
    rw [List.find?_cons_of_pos (removeKey s.lru k) hp]
    rfl
  · intro k' hk'
    have hpe : ¬ ((fun e => decide (e.key = k')) (⟨k, v⟩ : entry) = true) := by
      simp
      exact Ne.symm hk'
    show List.find? (fun e => decide (e.key = k')) (⟨k, v⟩ :: removeKey s.lru k)
        = List.find? (fun e => decide (e.key = k')) s.lru
    exact (List.find?_cons_of_neg (removeKey s.lru k) hpe).trans
      (find?_removeKey_ne s.lru k k' hk')

theorem C3_witness :
    let s := ((newShard 2).set [97] [1]).set [98] [2]
    (s.set [97] [5]).data = s.data ∧
    (s.set [97] [5]).lru.length = s.lru.length ∧
    (s.set [97] [5]).lru.head? = some ⟨[97], [5]⟩ ∧
    ((s.set [97] [5]).lru.find? (fun e => e.key = [97])).map entry.value
        = some [5] ∧
    (∀ k', k' ≠ [97] →
      (s.set [97] [5]).lru.find? (fun e => e.key = k')
        = s.lru.find? (fun e => e.key = k')) ∧
    (s.set [97] [5]).capacity = s.capacity :=
  C3_update_in_place _ [97] [5] (by decide) (by decide)

/-- `getShardIdx` reads only the shard count. -/
theorem getShardIdx_eq_of_shardCount_eq (sc1 sc2 : ShardedCache) (k : GoStr)
    (h : sc1.shardCount = sc2.shardCount) :
    sc1.getShardIdx k = sc2.getShardIdx k := by
  unfold ShardedCache.getShardIdx
  rw [h]

/-- A `get` on an absent key errors and leaves the shard untouched. -/
theorem get_miss (s : Shard) (k : GoStr) (h : k ∉ s.data) :
    s.get k = (none, s) := by
  unfold Shard.get
  simp [h]

/-- After a shard-level `delete(k)`, `k` is gone from the map. -/
theorem not_mem_data_delete (s : Shard) (k : GoStr) :
    k ∉ (s.delete k).data := by
  unfold Shard.delete
  by_cases h : k ∈ s.data
  · rw [if_pos h]
    simp [List.mem_filter]
  · rw [if_neg h]
    exact h

/-- Shard-level `delete` is idempotent. -/
theorem delete_delete_shard (s : Shard) (k : GoStr) :
    (s.delete k).delete k = s.delete k := by
  generalize hgen : s.delete k = t
  have h2 : k ∉ t.data := hgen ▸ not_mem_data_delete s k
  unfold Shard.delete
  rw [if_neg h2]

/-- Unfolding equation for a routed `Delete`. -/
theorem Delete_eq (sc : ShardedCache) (k : GoStr) (i : Nat) (sh : Shard)
    (hidx : sc.getShardIdx k = some i) (hsh : sc.shards[i]? = some sh) :
    sc.Delete k = some { sc with shards := sc.shards.set i (sh.delete k) } := by
  simp [ShardedCache.Delete, hidx, hsh]

/-- Unfolding equation for a routed `Get`. -/
theorem Get_eq (sc : ShardedCache) (k : GoStr) (i : Nat) (sh : Shard)
    (hidx : sc.getShardIdx k = some i) (hsh : sc.shards[i]? = some sh) :
    sc.Get k
      = some ((sh.get k).1,
          { sc with shards := sc.shards.set i (sh.get k).2 }) := by
  simp [ShardedCache.Get, hidx, hsh]

/-- A `Delete` whose routing fails is `none`. -/
theorem Delete_none (sc : ShardedCache) (k : GoStr)
    (hidx : sc.getShardIdx k = none) : sc.Delete k = none := by
  simp [ShardedCache.Delete, hidx]

/-- A `Delete` whose routed index is out of bounds is `none`. -/
theorem Delete_none_oob (sc : ShardedCache) (k : GoStr) (i : Nat)
    (hidx : sc.getShardIdx k = some i) (hsh : sc.shards[i]? = none) :
    sc.Delete k = none := by
  simp [ShardedCache.Delete, hidx, hsh]

/-- C8: `delete(k)` is idempotent at the store level — deleting twice yields
exactly the same store as deleting once (in the `Option` model a routing
panic propagates equally on both sides) — and after a successful delete the
key is observably absent: a subsequent `Get` returns the not-found error.
Neither call has an error path: shard-level `delete` is a total function. -/
theorem C8_delete_idempotent :
    ∀ (sc : ShardedCache) (k : GoStr),
      ((sc.Delete k).bind (fun sc2 => sc2.Delete k) = sc.Delete k) ∧
      (∀ sc', sc.Delete k = some sc' →
        ∃ r, sc'.Get k = some r ∧ r.1 = none) := by
  intro sc k
  cases hidx : sc.getShardIdx k with
  | none =>
    rw [Delete_none sc k hidx]
    exact ⟨rfl, fun sc' h => by cases h⟩
  | some i =>
    cases hsh : sc.shards[i]? with
    | none =>
      rw [Delete_none_oob sc k i hidx hsh]
      exact ⟨rfl, fun sc' h => by cases h⟩
    | some sh =>
      have hlen : i < sc.shards.length := by
        rcases List.getElem?_eq_some_iff.1 hsh with ⟨h, _⟩
        exact h
      rw [Delete_eq sc k i sh hidx hsh]
      have hidx2 :
          ({ sc with shards := sc.shards.set i (sh.delete k) }
            : ShardedCache).getShardIdx k = some i :=
        (getShardIdx_eq_of_shardCount_eq _ sc k rfl).trans hidx
      have hsh2 :
          ({ sc with shards := sc.shards.set i (sh.delete k) }
            : ShardedCache).shards[i]? = some (sh.delete k) :=
        List.getElem?_set_self (by simpa using hlen)
      constructor
      · rw [Option.some_bind, Delete_eq _ k i (sh.delete k) hidx2 hsh2]
        simp [List.set_set, delete_delete_shard]
      · intro sc' hsc'
        have hsc2 :
            sc' = { sc with shards := sc.shards.set i (sh.delete k) } :=
          (Option.some_inj.1 hsc').symm
        subst hsc2
        rw [Get_eq _ k i (sh.delete k) hidx2 hsh2]
        refine ⟨_, rfl, ?_⟩
        show ((sh.delete k).get k).1 = none
        rw [get_miss _ _ (not_mem_data_delete sh k)]

/-- `evict` never changes the capacity. -/
theorem evict_capacity (s : Shard) : s.evict.capacity = s.capacity := by
  unfold Shard.evict
  split <;> rfl

/-- `set` never changes the capacity. -/
theorem set_capacity (s : Shard) (k v : GoStr) :
    (s.set k v).capacity = s.capacity := by
  unfold Shard.set
  by_cases h : k ∈ s.data
  · rw [if_pos h]
  · rw [if_neg h]
    show (if 0 < s.capacity ∧ s.capacity ≤ (s.lru.length : Int)
        then s.evict else s).capacity = s.capacity
    split
    · exact evict_capacity s
    · rfl

/-- `evict` on a nonempty LRU list removes exactly one entry. -/
theorem evict_lru_length (s : Shard) (h : s.lru ≠ []) :
    s.evict.lru.length + 1 = s.lru.length := by
  unfold Shard.evict
  cases hl : s.lru.getLast? with
  | none => exact absurd (List.getLast?_eq_none_iff.1 hl) h
  | some e =>
    have hpos : 0 < s.lru.length := List.length_pos.2 h
    simp [List.length_dropLast]
    omega

/-- A `set` can add only the written key to the map. -/
theorem mem_data_set (s : Shard) (k v : GoStr) :
    ∀ x, x ∈ (s.set k v).data → x = k ∨ x ∈ s.data := by
  unfold Shard.set
  by_cases h : k ∈ s.data
  · rw [if_pos h]
    exact fun x hx => Or.inr hx
  · rw [if_neg h]
    intro x hx
    show x = k ∨ x ∈ s.data
    rcases List.mem_cons.1 hx with hxk | hx'
    · exact Or.inl hxk
    · split at hx'
      · exact Or.inr (evict_data_subset s x hx')
      · exact Or.inr hx'

/-- Inserting a fresh key grows the list by one below capacity and keeps the
length at capacity (the eviction makes room first). -/
theorem set_fresh_length (s : Shard) (k v : GoStr)
    (hC : 0 < s.capacity) (h : k ∉ s.data) :
    (s.set k v).lru.length
      = if s.capacity ≤ (s.lru.length : Int)
        then s.lru.length else s.lru.length + 1 := by
  unfold Shard.set
  rw [if_neg h]
  by_cases hc : s.capacity ≤ (s.lru.length : Int)
  · rw [if_pos hc]
    have hne : s.lru ≠ [] := by
      have : (0 : Int) < (s.lru.length : Int) := lt_of_lt_of_le hC hc
      have : 0 < s.lru.length := by exact_mod_cast this
      exact List.ne_nil_of_length_pos this
    show (⟨k, v⟩ ::
        (if 0 < s.capacity ∧ s.capacity ≤ (s.lru.length : Int)
          then s.evict else s).lru).length = s.lru.length
    rw [if_pos ⟨hC, hc⟩, List.length_cons, evict_lru_length s hne]
  · rw [if_neg hc]
    show (⟨k, v⟩ ::
        (if 0 < s.capacity ∧ s.capacity ≤ (s.lru.length : Int)
          then s.evict else s).lru).length = s.lru.length + 1
    rw [if_neg (fun hand => hc hand.2), List.length_cons]

/-- Length evolution of a run of `set`s with pairwise-distinct fresh keys on
a positive-capacity shard whose occupancy is within capacity. -/
theorem setAll_length_distinct_bounded (kvs : List (GoStr × GoStr)) :
    ∀ s : Shard, 0 < s.capacity →
      (∀ p ∈ kvs, p.1 ∉ s.data) →
      (kvs.map Prod.fst).Nodup →
      s.lru.length ≤ s.capacity.toNat →
      (s.setAll kvs).lru.length
        = min (s.lru.length + kvs.length) s.capacity.toNat := by
  induction kvs with
  | nil =>
    intro s hC _ _ hlen
    show s.lru.length = min (s.lru.length + 0) s.capacity.toNat
    omega
  | cons kv rest ih =>
    intro s hC hfresh hnd hlen
    have hk : kv.1 ∉ s.data := hfresh kv (List.mem_cons_self kv rest)
    have hstep : s.setAll (kv :: rest) = (s.set kv.1 kv.2).setAll rest := rfl
    rw [hstep]
    have hcap1 : (s.set kv.1 kv.2).capacity = s.capacity := set_capacity s kv.1 kv.2
    have hlen1 := set_fresh_length s kv.1 kv.2 hC hk
    have hcapNat : ((s.capacity.toNat : Int)) = s.capacity :=
      Int.toNat_of_nonneg (le_of_lt hC)
    have hfresh1 : ∀ p ∈ rest, p.1 ∉ (s.set kv.1 kv.2).data := by
      intro p hp hmem
      rcases mem_data_set s kv.1 kv.2 p.1 hmem with heq | hold
      · have hnotin : kv.1 ∉ rest.map Prod.fst := (List.nodup_cons.1 hnd).1
        exact hnotin (heq ▸ List.mem_map_of_mem Prod.fst hp)
      · exact hfresh p (List.mem_cons_of_mem kv hp) hold
    have hnd1 : (rest.map Prod.fst).Nodup := (List.nodup_cons.1 hnd).2
    by_cases hc : s.capacity ≤ (s.lru.length : Int)
    · have hlen_eq : (s.set kv.1 kv.2).lru.length = s.lru.length := by
        rw [hlen1, if_pos hc]
      have hge : s.capacity.toNat ≤ s.lru.length := by
        have h2 : (s.capacity.toNat : Int) ≤ (s.lru.length : Int) := by
          rw [hcapNat]; exact hc
        exact_mod_cast h2
      have hih := ih (s.set kv.1 kv.2) (hcap1 ▸ hC) hfresh1 hnd1
        (by rw [hlen_eq, hcap1]; exact hlen)
      rw [hih, hlen_eq, hcap1]
      simp only [List.length_cons]
      omega
    · have hlen_eq : (s.set kv.1 kv.2).lru.length = s.lru.length + 1 := by
        rw [hlen1, if_neg hc]
      have hlt : s.lru.length < s.capacity.toNat := by
        have : (s.lru.length : Int) < (s.capacity.toNat : Int) := by
          rw [hcapNat]; exact lt_of_not_le hc
        exact_mod_cast this
      have hih := ih (s.set kv.1 kv.2) (hcap1 ▸ hC) hfresh1 hnd1
        (by rw [hlen_eq, hcap1]; omega)
      rw [hih, hlen_eq, hcap1]
      simp only [List.length_cons]
      omega

/-- C1: on a shard of capacity `C > 0`, after any prefix of `i` of `n`
`set` calls with pairwise-distinct keys starting from the empty shard, the
shard holds exactly `min i C` entries — in particular the count never
exceeds `C` at any point. -/
theorem C1_capacity_invariant (C : Int) (kvs : List (GoStr × GoStr))
    (hC : 0 < C) (hnd : (kvs.map Prod.fst).Nodup) :
    ∀ i ≤ kvs.length,
      ((newShard C).setAll (kvs.take i)).lru.length = min i C.toNat ∧
      ((newShard C).setAll (kvs.take i)).lru.length ≤ C.toNat := by
  intro i hi
  have hndt : ((kvs.take i).map Prod.fst).Nodup := by
    rw [List.map_take]
    exact ((kvs.map Prod.fst).take_sublist i).nodup hnd
  have h := setAll_length_distinct_bounded (kvs.take i) (newShard C) hC
    (fun p _ hmem => absurd hmem (List.not_mem_nil p.1))
    hndt
    (by simp [newShard])
  have hti : (kvs.take i).length = i := by
    rw [List.length_take]
    omega
  rw [hti] at h
  have h0 : (newShard C).lru.length = 0 := rfl
  have hcap0 : (newShard C).capacity = C := rfl
  rw [h0, hcap0, Nat.zero_add] at h
  exact ⟨h, by rw [h]; omega⟩

theorem C1_witness :
    ((newShard 2).setAll
        ([([1], [1]), ([2], [2]), ([3], [3])].take 3)).lru.length
      = min 3 (Int.toNat 2) ∧
    ((newShard 2).setAll
        ([([1], [1]), ([2], [2]), ([3], [3])].take 3)).lru.length
      ≤ Int.toNat 2 :=
  C1_capacity_invariant 2 [([1], [1]), ([2], [2]), ([3], [3])]
    (by decide) (by decide) 3 (by decide)

/-- C5: for every shard state and key, `get` fails with the not-found error
exactly when the key is absent from the shard's map, and a failing `get`
leaves the shard unchanged.  `set` and `delete` have no error path at all:
their embeddings (like the Go methods) are total functions `Shard → Shard`,
so the not-found error of `get` is the only error a core operation can
produce. -/
theorem C5_get_notfound_iff_absent :
    ∀ (s : Shard) (k : GoStr),
      ((s.get k).1 = none ↔ k ∉ s.data) ∧ (k ∉ s.data → (s.get k).2 = s) := by
  intro s k
  refine ⟨?_, ?_⟩
  · unfold Shard.get
    by_cases h : k ∈ s.data
    · cases hf : s.lru.find? (fun e => e.key = k) <;> simp [h, hf]
    · simp [h]
  · intro h
    unfold Shard.get
    simp [h]

theorem C5_witness :
    ((newShard 2).get [97]).1 = none ∧ ((newShard 2).get [97]).2 = newShard 2 :=
  ⟨(C5_get_notfound_iff_absent (newShard 2) [97]).1.2 (by decide),
   (C5_get_notfound_iff_absent (newShard 2) [97]).2 (by decide)⟩

theorem C8_witness :
    ∃ r, (NewShardedCache [COption.withShardCount 1]).Get [97] = some r ∧
      r.1 = none :=
  (C8_delete_idempotent (NewShardedCache [COption.withShardCount 1]) [97]).2
    (NewShardedCache [COption.withShardCount 1]) (by decide)

/-- Inserting a fresh key into a shard of non-positive capacity never
evicts: the list grows by one and the key joins the map. -/
theorem set_fresh_unbounded (s : Shard) (k v : GoStr)
    (hc : s.capacity ≤ 0) (h : k ∉ s.data) :
    (s.set k v).lru.length = s.lru.length + 1 ∧
    (s.set k v).data = k :: s.data := by
  unfold Shard.set
  rw [if_neg h]
  have hcond : ¬ (0 < s.capacity ∧ s.capacity ≤ (s.lru.length : Int)) :=
    fun hand => absurd hand.1 (not_lt.2 hc)
  constructor
  · show (⟨k, v⟩ ::
        (if 0 < s.capacity ∧ s.capacity ≤ (s.lru.length : Int)
          then s.evict else s).lru).length = s.lru.length + 1
    rw [if_neg hcond, List.length_cons]
  · show k ::
        (if 0 < s.capacity ∧ s.capacity ≤ (s.lru.length : Int)
          then s.evict else s).data = k :: s.data
    rw [if_neg hcond]

/-- On a shard of non-positive capacity, a run of `set`s with
pairwise-distinct fresh keys grows the list by exactly the number of
`set`s: nothing is ever evicted. -/
theorem setAll_length_unbounded (kvs : List (GoStr × GoStr)) :
    ∀ s : Shard, s.capacity ≤ 0 →
      (∀ p ∈ kvs, p.1 ∉ s.data) →
      (kvs.map Prod.fst).Nodup →
      (s.setAll kvs).lru.length = s.lru.length + kvs.length := by
  induction kvs with
  | nil =>
    intro s _ _ _
    show s.lru.length = s.lru.length + 0
    omega
  | cons kv rest ih =>
    intro s hc hfresh hnd
    have hk : kv.1 ∉ s.data := hfresh kv (List.mem_cons_self kv rest)
    have hstep : s.setAll (kv :: rest) = (s.set kv.1 kv.2).setAll rest := rfl
    rw [hstep]
    obtain ⟨hlen1, hdata1⟩ := set_fresh_unbounded s kv.1 kv.2 hc hk
    have hcap1 : (s.set kv.1 kv.2).capacity = s.capacity :=
      set_capacity s kv.1 kv.2
    have hfresh1 : ∀ p ∈ rest, p.1 ∉ (s.set kv.1 kv.2).data := by
      intro p hp hmem
      rw [hdata1] at hmem
      rcases List.mem_cons.1 hmem with heq | hold
      · have hnotin : kv.1 ∉ rest.map Prod.fst := (List.nodup_cons.1 hnd).1
        exact hnotin (heq ▸ List.mem_map_of_mem Prod.fst hp)
      · exact hfresh p (List.mem_cons_of_mem kv hp) hold
    have hih := ih (s.set kv.1 kv.2) (hcap1 ▸ hc) hfresh1
      (List.nodup_cons.1 hnd).2
    rw [hih, hlen1]
    simp only [List.length_cons]
    omega

/-- C7 amended: a per-shard capacity option of `0` or a negative value is
silently ignored, so the store keeps the default capacity `100` and its
shards are bounded (they do evict); it is a shard constructed directly with
capacity `≤ 0` that is unbounded — no `set` ever evicts there, and after
`n` sets with pairwise-distinct keys such a shard holds all `n` entries. -/
theorem C7_nonpositive_capacity_option_ignored :
    (∀ c : Int, c ≤ 0 →
      (NewShardedCache [COption.withShardCapacity c]).shardCapacity = 100 ∧
      (NewShardedCache [COption.withShardCapacity c]).shards
        = List.replicate 16 (newShard 100)) ∧
    (∀ c : Int, c ≤ 0 → ∀ kvs : List (GoStr × GoStr),
      (kvs.map Prod.fst).Nodup →
      ((newShard c).setAll kvs).lru.length = kvs.length) := by
  constructor
  · intro c hc
    have hnc : ¬ 0 < c := not_lt.2 hc
    constructor
    · simp [NewShardedCache, applyOption, hnc]
    · simp [NewShardedCache, applyOption, hnc]
  · intro c hc kvs hnd
    have h := setAll_length_unbounded kvs (newShard c) hc
      (fun p _ hmem => absurd hmem (List.not_mem_nil p.1)) hnd
    simpa [newShard] using h

theorem C7_witness :
    (NewShardedCache [COption.withShardCapacity 0]).shardCapacity = 100 ∧
    ((newShard 0).setAll [([1], [1]), ([2], [2]), ([3], [3])]).lru.length
      = 3 :=
  ⟨(C7_nonpositive_capacity_option_ignored.1 0 (by decide)).1,
   C7_nonpositive_capacity_option_ignored.2 0 (by decide)
     [([1], [1]), ([2], [2]), ([3], [3])] (by decide)⟩

/-- 101 pairwise-distinct single-byte keys, each with itself as value. -/
def c7kvs : List (GoStr × GoStr) := (List.range 101).map (fun i => ([i], [i]))

set_option maxRecDepth 40000 in
theorem C7_counterexample :
    ((NewShardedCache
        [COption.withShardCount 1, COption.withShardCapacity 0]).SetAll
          c7kvs).map (fun sc => sc.shards.map (fun sh => sh.lru.length))
      = some [100] ∧
    ((NewShardedCache
        [COption.withShardCount 1, COption.withShardCapacity 0]).SetAll
          c7kvs).map (fun sc => sc.shards.map (fun sh => sh.lru.length))
      ≠ some [101] := by
  constructor
  · decide
  · decide

/-- Equation lemma: applying a `WithShardCount` option. -/
theorem applyOption_count (sc : ShardedCache) (n : Int) :
    applyOption sc (COption.withShardCount n)
      = if 0 < n then { sc with shardCount := n } else sc := rfl

/-- Equation lemma: applying a `WithShardCapacity` option. -/
theorem applyOption_cap (sc : ShardedCache) (c : Int) :
    applyOption sc (COption.withShardCapacity c)
      = if 0 < c then { sc with shardCapacity := c } else sc := rfl

/-- Folding the options keeps the shard count at least 1: `WithShardCount`
only ever stores a positive value. -/
theorem foldl_applyOption_shardCount_pos (opts : List COption) :
    ∀ sc0 : ShardedCache, 1 ≤ sc0.shardCount →
      1 ≤ (opts.foldl applyOption sc0).shardCount := by
  induction opts with
  | nil => exact fun sc0 h => h
  | cons o rest ih =>
    intro sc0 h1
    have hstep : (o :: rest).foldl applyOption sc0
        = rest.foldl applyOption (applyOption sc0 o) := rfl
    rw [hstep]
    apply ih
    cases o with
    | withShardCount n =>
      rw [applyOption_count]
      by_cases hn : 0 < n
      · rw [if_pos hn]
        exact hn
      · rw [if_neg hn]
        exact h1
    | withShardCapacity c =>
      rw [applyOption_cap]
      by_cases hc : 0 < c
      · rw [if_pos hc]
        exact h1
      · rw [if_neg hc]
        exact h1

/-- When every `WithShardCount` argument in the option list is below `2^32`,
folding the options keeps the shard count below `2^32`. -/
theorem foldl_applyOption_shardCount_lt (opts : List COption) :
    ∀ sc0 : ShardedCache, sc0.shardCount < 2 ^ 32 →
      (∀ n : Int, COption.withShardCount n ∈ opts → n < 2 ^ 32) →
      (opts.foldl applyOption sc0).shardCount < 2 ^ 32 := by
  induction opts with
  | nil => exact fun sc0 h _ => h
  | cons o rest ih =>
    intro sc0 h1 hsmall
    have hstep : (o :: rest).foldl applyOption sc0
        = rest.foldl applyOption (applyOption sc0 o) := rfl
    rw [hstep]
    apply ih
    · cases o with
      | withShardCount n =>
        rw [applyOption_count]
        by_cases hn : 0 < n
        · rw [if_pos hn]
          exact hsmall n (List.mem_cons_self _ _)
        · rw [if_neg hn]
          exact h1
      | withShardCapacity c =>
        rw [applyOption_cap]
        by_cases hc : 0 < c
        · rw [if_pos hc]
          exact h1
        · rw [if_neg hc]
          exact h1
    · exact fun n hn => hsmall n (List.mem_cons_of_mem o hn)

/-- The constructed store exposes the folded configuration. -/
theorem NewShardedCache_shardCount (opts : List COption) :
    (NewShardedCache opts).shardCount
      = (opts.foldl applyOption
          { shards := [], shardCount := 16, shardCapacity := 100 }).shardCount :=
  rfl

/-- The shard slice has exactly `shardCount` shards. -/
theorem NewShardedCache_length (opts : List COption) :
    (NewShardedCache opts).shards.length
      = (NewShardedCache opts).shardCount.toNat := by
  show (List.replicate _ _).length = _
  rw [List.length_replicate]
  rfl

/-- C10 amended: for every option list the shard count is at least 1 and the
shard slice has exactly that length; and whenever every `WithShardCount`
argument is below `2^32` (so that Go's `uint32` truncation of the shard
count is nonzero), routing succeeds for every key with an index strictly
inside the slice — shard lookup cannot fail.  (The truncation proviso is
necessary: see the counterexample.) -/
theorem C10_shard_lookup_safe (opts : List COption) :
    1 ≤ (NewShardedCache opts).shardCount ∧
    (NewShardedCache opts).shards.length
      = (NewShardedCache opts).shardCount.toNat ∧
    ((∀ n : Int, COption.withShardCount n ∈ opts → n < 2 ^ 32) →
      ∀ key : GoStr, ∃ i,
        (NewShardedCache opts).getShardIdx key = some i ∧
        i < (NewShardedCache opts).shards.length) := by
  have h1 : 1 ≤ (NewShardedCache opts).shardCount := by
    rw [NewShardedCache_shardCount]
    exact foldl_applyOption_shardCount_pos opts _ (by norm_num)
  refine ⟨h1, NewShardedCache_length opts, ?_⟩
  intro hsmall key
  have h2 : (NewShardedCache opts).shardCount < 2 ^ 32 := by
    rw [NewShardedCache_shardCount]
    exact foldl_applyOption_shardCount_lt opts _ (by norm_num) hsmall
  have hm : uint32ofInt (NewShardedCache opts).shardCount
      = (NewShardedCache opts).shardCount.toNat := by
    unfold uint32ofInt
    rw [Int.emod_eq_of_lt (by omega) h2]
  have hmpos : 0 < (NewShardedCache opts).shardCount.toNat := by omega
  refine ⟨fnv32a key % (NewShardedCache opts).shardCount.toNat, ?_, ?_⟩
  · unfold ShardedCache.getShardIdx
    rw [hm, if_neg (by omega)]
  · rw [NewShardedCache_length]
    exact Nat.mod_lt _ hmpos

theorem C10_witness :
    1 ≤ (NewShardedCache []).shardCount ∧
    ∃ i, (NewShardedCache []).getShardIdx [97] = some i ∧
      i < (NewShardedCache []).shards.length :=
  ⟨(C10_shard_lookup_safe []).1,
   (C10_shard_lookup_safe []).2.2
     (fun n hn => absurd hn (List.not_mem_nil _)) [97]⟩

/-- C10 counterexample: `WithShardCount(2^32)` (a positive value, accepted
by the option) yields a store whose shard count is `2^32`, whose `uint32`
truncation is `0`: `getShard`'s `hash.Sum32() % uint32(sc.shardCount)`
divides by zero and panics for every key, so shard lookup *can* fail even
though the shard count is at least 1 and the slice has full length. -/
theorem C10_counterexample :
    (NewShardedCache [COption.withShardCount (2 ^ 32)]).shardCount = 2 ^ 32 ∧
    1 ≤ (NewShardedCache [COption.withShardCount (2 ^ 32)]).shardCount ∧
    ∀ key : GoStr,
      (NewShardedCache [COption.withShardCount (2 ^ 32)]).getShardIdx key
        = none := by
  have hsc : (NewShardedCache [COption.withShardCount (2 ^ 32)]).shardCount
      = 2 ^ 32 := by
    rw [NewShardedCache_shardCount]
    norm_num [applyOption]
  refine ⟨hsc, by rw [hsc]; norm_num, ?_⟩
  intro key
  unfold ShardedCache.getShardIdx
  rw [hsc]
  have hz : uint32ofInt (2 ^ 32) = 0 := by
    unfold uint32ofInt
    norm_num
  rw [hz, if_pos rfl]
